import Mathlib

/-
Verification of the admission-controlled worker pool (patterns/limiter/client-limiter.go)
and the functional-options builders (patterns/foptions.go).

The limiter is embedded as a small-step interleaving machine over an explicit
system state: the buffered job channel, the unbuffered done channel, the worker
goroutines, the stop handler, and the waitgroup counter.  The foptions builders
are pure and embedded directly.
-/

namespace Patterns

/-
Embedding of patterns/foptions.go.  Durations are modelled in nanoseconds, as in
Go where time.Second = 1000000000 time.Duration units.
-/

def second : Int := 1000000000

/-- Fields of the Go net/http Transport that the source touches.  Fields not set
by the composite literal in NewTransportWrapper keep the Go zero value. -/
structure HttpTransport where
  proxyFromEnvironment : Bool
  dialTimeout : Int
  dialKeepAlive : Int
  dualStack : Bool
  forceAttemptHTTP2 : Bool
  maxIdleConns : Int
  idleConnTimeout : Int
  tlsHandshakeTimeout : Int
  expectContinueTimeout : Int
  maxIdleConnsPerHost : Int
  maxConnsPerHost : Int
deriving DecidableEq

/-- The RoundTripper of an http.Client: either http.DefaultTransport or the
Transport installed by an option. -/
inductive RoundTripper
  | defaultTransport
  | custom (t : HttpTransport)
deriving DecidableEq

/-- Fields of the Go net/http Client set by NewClientWrapper. -/
structure HttpClient where
  transport : RoundTripper
  checkRedirect : Option Unit
  jar : Option Unit
  timeout : Int
deriving DecidableEq

structure ClientWrapper where
  Cl : HttpClient
deriving DecidableEq

structure TransportWrapper where
  Tr : HttpTransport
deriving DecidableEq

def ClientOption : Type := ClientWrapper → ClientWrapper

def TransportOption : Type := TransportWrapper → TransportWrapper

/-- NewClientWrapper from foptions.go: build the fixed default client, then
apply the options in order. -/
def NewClientWrapper (opts : List ClientOption) : ClientWrapper :=
  opts.foldl (fun c opt => opt c)
    { Cl := { transport := RoundTripper.defaultTransport
            , checkRedirect := none
            , jar := none
            , timeout := 0 } }

def Timeout (t : Int) : ClientOption :=
  fun c => { c with Cl := { c.Cl with timeout := t } }

def Transport (tr : TransportWrapper) : ClientOption :=
  fun c => { c with Cl := { c.Cl with transport := RoundTripper.custom tr.Tr } }

/-- NewTransportWrapper from foptions.go: build the fixed default transport,
then apply the options in order. -/
def NewTransportWrapper (opts : List TransportOption) : TransportWrapper :=
  opts.foldl (fun t opt => opt t)
    { Tr := { proxyFromEnvironment := true
            , dialTimeout := 30 * second
            , dialKeepAlive := 30 * second
            , dualStack := true
            , forceAttemptHTTP2 := true
            , maxIdleConns := 100
            , idleConnTimeout := 90 * second
            , tlsHandshakeTimeout := 10 * second
            , expectContinueTimeout := 1 * second
            , maxIdleConnsPerHost := 0
            , maxConnsPerHost := 0 } }

def MaxIdleCons (ic : Int) : TransportOption :=
  fun t => { t with Tr := { t.Tr with maxIdleConns := ic } }

def MaxIdleConsPerHost (ich : Int) : TransportOption :=
  fun t => { t with Tr := { t.Tr with maxIdleConnsPerHost := ich } }

def MaxConsPerHost (cph : Int) : TransportOption :=
  fun t => { t with Tr := { t.Tr with maxConnsPerHost := cph } }

def IdleConTimeout (ict : Int) : TransportOption :=
  fun t => { t with Tr := { t.Tr with idleConnTimeout := ict } }

end Patterns

namespace Limiter

/-
Embedding of patterns/limiter/client-limiter.go.
-/

/-- The job queue: the Go buffered channel make(chan int, 10) together with its
closed flag. -/
structure QSt where
  buf : List Nat
  cap : Nat
  closed : Bool
deriving DecidableEq

/-- Result of a send on the job channel: accepted when the buffer has room,
blocked while the buffer is at capacity, and a runtime panic when the channel
has been closed. -/
inductive EnqRes
  | accepted (q : QSt)
  | blocked
  | closedPanic
deriving DecidableEq

def enqueue (j : Nat) (q : QSt) : EnqRes :=
  if q.closed then EnqRes.closedPanic
  else if q.buf.length < q.cap then EnqRes.accepted { q with buf := q.buf ++ [j] }
  else EnqRes.blocked

/-- Result of a receive on the job channel, as used by the range loop: a value,
end of stream once closed and empty, or blocking while empty and open. -/
inductive DeqRes
  | got (j : Nat) (q : QSt)
  | drained
  | blocked
deriving DecidableEq

def dequeue (q : QSt) : DeqRes :=
  match q.buf with
  | j :: rest => DeqRes.got j { q with buf := rest }
  | [] => if q.closed then DeqRes.drained else DeqRes.blocked

def closeQ (q : QSt) : QSt := { q with closed := true }

/-- Enqueue a whole list, failing if any send does not complete. -/
def enqAll (xs : List Nat) (q : QSt) : Option QSt :=
  match xs with
  | [] => some q
  | j :: rest =>
    match enqueue j q with
    | EnqRes.accepted q2 => enqAll rest q2
    | _ => none

/-- Repeatedly dequeue, at most fuel times, collecting delivered jobs. -/
def drainFuel : Nat → QSt → List Nat × QSt
  | 0, q => ([], q)
  | n + 1, q =>
    match dequeue q with
    | DeqRes.got j q2 =>
      let p := drainFuel n q2
      (j :: p.1, p.2)
    | _ => ([], q)

/-- State of the unbuffered done channel.  opened: no sender, not closed.
pendingSend: the stop handler is blocked in its send.  sentOpen: the value was
received by one worker, the channel is open again and the stop handler is about
to close it.  closed: close has run. -/
inductive DoneSt
  | opened
  | pendingSend
  | sentOpen
  | closed
deriving DecidableEq

/-- Progress of the stop HTTP handler.  notCalled: not invoked.  sending:
blocked in the send on done.  sendDone: the send was received, close not yet
executed.  completed: close executed, handler returned.  panicked: the handler
hit a send on a closed channel. -/
inductive StopSt
  | notCalled
  | sending
  | sendDone
  | completed
  | panicked
deriving DecidableEq

/-- Program counter of one worker goroutine running startWorker.  atLoop: about
to receive from the queue.  sel j: received job j, at the select statement.
exited: the function returned. -/
inductive WPC
  | atLoop
  | sel (j : Nat)
  | exited
deriving DecidableEq

/-- One worker goroutine, with ghost observation fields: execs is the list of
jobs it passed to request, post counts jobs passed to request at a time when
the stop handler had already been invoked. -/
structure Worker where
  pc : WPC
  execs : List Nat
  post : Nat
deriving DecidableEq

/-- Global state: job channel, done channel, stop handler, workers, the limit
waitgroup counter, and the producer with its pending close of the queue. -/
structure Sys where
  q : QSt
  done : DoneSt
  stopSt : StopSt
  workers : List Worker
  limit : Nat
  prodRem : List Nat
  prodClose : Bool
deriving DecidableEq

def stopCalled (s : Sys) : Bool :=
  if s.stopSt = StopSt.notCalled then false else true

/-- Ghost bookkeeping when a worker passes job j to request and moves to pc2. -/
def runJob (b : Bool) (j : Nat) (w : Worker) (pc2 : WPC) : Worker :=
  { pc := pc2, execs := w.execs ++ [j], post := w.post + (if b then 1 else 0) }

/-- addWorker and each iteration of wgroup: c.limit.Add(1) followed by go
c.startWorker(). -/
def spawnWorker (s : Sys) : Sys :=
  { s with workers := s.workers ++ [{ pc := WPC.atLoop, execs := [], post := 0 }]
         , limit := s.limit + 1 }

/-- The for loop of wgroup, spawning n workers. -/
def spawnN : Nat → Sys → Sys
  | 0, s => s
  | n + 1, s => spawnN n (spawnWorker s)

/-- wgroup: starts the worker pool with the default number of workers. -/
def wgroup (s : Sys) : Sys := spawnN 5 s

/-- One atomic action of some goroutine. -/
inductive Act
  | enq
  | closeQAct
  | deq (i : Nat)
  | wexit (i : Nat)
  | sel (i : Nat)
  | stopBegin
  | stopClose
  | addWorker
deriving DecidableEq

/-- Small-step semantics: apply one action, none when that action is disabled
(blocked) in this state. -/
def applyAct : Act → Sys → Option Sys
  | Act.enq, s =>
    match s.prodRem with
    | [] => none
    | j :: rest =>
      match enqueue j s.q with
      | EnqRes.accepted q2 => some { s with q := q2, prodRem := rest }
      | _ => none
  | Act.closeQAct, s =>
    if s.prodRem = [] ∧ s.prodClose = true ∧ s.q.closed = false then
      some { s with q := closeQ s.q, prodClose := false }
    else none
  | Act.deq i, s =>
    match s.workers.get? i with
    | some w =>
      match w.pc, s.q.buf with
      | WPC.atLoop, j :: rest =>
        some { s with q := { s.q with buf := rest }
                    , workers := s.workers.set i { w with pc := WPC.sel j } }
      | _, _ => none
    | none => none
  | Act.wexit i, s =>
    match s.workers.get? i with
    | some w =>
      if w.pc = WPC.atLoop ∧ s.q.buf = [] ∧ s.q.closed = true then
        some { s with workers := s.workers.set i { w with pc := WPC.exited }
                    , limit := s.limit - 1 }
      else none
    | none => none
  | Act.sel i, s =>
    match s.workers.get? i with
    | some w =>
      match w.pc with
      | WPC.sel j =>
        match s.done with
        | DoneSt.pendingSend =>
          some { s with done := DoneSt.sentOpen, stopSt := StopSt.sendDone
                      , workers := s.workers.set i (runJob (stopCalled s) j w WPC.exited)
                      , limit := s.limit - 1 }
        | DoneSt.closed =>
          some { s with workers := s.workers.set i (runJob (stopCalled s) j w WPC.exited)
                      , limit := s.limit - 1 }
        | DoneSt.opened =>
          some { s with workers := s.workers.set i (runJob (stopCalled s) j w WPC.atLoop) }
        | DoneSt.sentOpen =>
          some { s with workers := s.workers.set i (runJob (stopCalled s) j w WPC.atLoop) }
      | _ => none
    | none => none
  | Act.stopBegin, s =>
    match s.stopSt, s.done with
    | StopSt.notCalled, DoneSt.opened =>
      some { s with stopSt := StopSt.sending, done := DoneSt.pendingSend }
    | StopSt.completed, DoneSt.closed =>
      some { s with stopSt := StopSt.panicked }
    | _, _ => none
  | Act.stopClose, s =>
    if s.stopSt = StopSt.sendDone then
      some { s with done := DoneSt.closed, stopSt := StopSt.completed }
    else none
  | Act.addWorker, s => some (spawnWorker s)

def Step (s s2 : Sys) : Prop := ∃ a, applyAct a s = some s2

def Reach (s s2 : Sys) : Prop := Relation.ReflTransGen Step s s2

/-- Control-plane actions, triggered by external HTTP requests. -/
def Act.isCtl : Act → Bool
  | Act.stopBegin => true
  | Act.addWorker => true
  | _ => false

def StepNC (s s2 : Sys) : Prop := ∃ a, a.isCtl = false ∧ applyAct a s = some s2

def ReachNC (s s2 : Sys) : Prop := Relation.ReflTransGen StepNC s s2

/-- Run a fixed schedule of actions. -/
def run : List Act → Sys → Option Sys
  | [], s => some s
  | a :: as, s =>
    match applyAct a s with
    | some s1 => run as s1
    | none => none

/-- Candidate actions in a state: all unparametrised actions plus indexed
worker actions for each live index. -/
def acts (s : Sys) : List Act :=
  [Act.enq, Act.closeQAct, Act.stopBegin, Act.stopClose, Act.addWorker]
    ++ (List.range s.workers.length).map Act.deq
    ++ (List.range s.workers.length).map Act.wexit
    ++ (List.range s.workers.length).map Act.sel

/-- All successors reachable by one non-control step. -/
def succsNC (s : Sys) : List Sys :=
  ((acts s).filter (fun a => !a.isCtl)).filterMap (fun a => applyAct a s)

/-- Whether a worker goroutine has not yet returned. -/
def live (w : Worker) : Bool :=
  match w.pc with
  | WPC.exited => false
  | _ => true

def liveCount (s : Sys) : Nat := s.workers.countP live

/-- Initial state of main before ctrl.wgroup(): empty queue of capacity 10,
open done channel, no workers, producer holding jobs 0..9999 and the pending
close of the work channel. -/
def base : Sys :=
  { q := { buf := [], cap := 10, closed := false }
  , done := DoneSt.opened
  , stopSt := StopSt.notCalled
  , workers := []
  , limit := 0
  , prodRem := List.range 10000
  , prodClose := true }

def initMain : Sys := wgroup base

/-
Embedding of the request method, the work function executing one job against
the downstream dependency.
-/

/-- Outcome of the downstream HTTP GET: a response body, or an error. -/
inductive InvokeRes
  | ok (body : Nat)
  | err
deriving DecidableEq

/-- What the request method does with one job: print the response and return to
the worker loop, or terminate the whole process via os.Exit. -/
inductive ReqOutcome
  | printedAndContinue (i body : Nat)
  | exitProcess (code : Nat)
deriving DecidableEq

/-- request from client-limiter.go: on error it prints the error and calls
os.Exit(1); otherwise it reads the body, prints it and returns. -/
def request (i : Nat) (r : InvokeRes) : ReqOutcome :=
  match r with
  | InvokeRes.err => ReqOutcome.exitProcess 1
  | InvokeRes.ok b => ReqOutcome.printedAndContinue i b

/-
Concrete scenario states and schedules.
-/

def mkWorker : Worker := { pc := WPC.atLoop, execs := [], post := 0 }

/-- Two idle workers, four buffered jobs, producer already finished. -/
def init1 : Sys :=
  { q := { buf := [1, 2, 3, 4], cap := 10, closed := false }
  , done := DoneSt.opened
  , stopSt := StopSt.notCalled
  , workers := [mkWorker, mkWorker]
  , limit := 2
  , prodRem := []
  , prodClose := false }

/-- Stop is invoked; worker 0 consumes the in-flight done send and exits after
one job; before the stop handler reaches close, worker 1 keeps taking the
select default branch and processes two further jobs; after close, worker 1
takes one more job through the done branch and exits. -/
def trace1 : List Act :=
  [Act.stopBegin, Act.deq 0, Act.sel 0, Act.deq 1, Act.sel 1,
   Act.deq 1, Act.sel 1, Act.stopClose, Act.deq 1, Act.sel 1]

/-- One idle worker, one buffered job. -/
def init4 : Sys :=
  { q := { buf := [1], cap := 10, closed := false }
  , done := DoneSt.opened
  , stopSt := StopSt.notCalled
  , workers := [mkWorker]
  , limit := 1
  , prodRem := []
  , prodClose := false }

/-- A full stop, then a second stop invocation. -/
def trace4 : List Act :=
  [Act.stopBegin, Act.deq 0, Act.sel 0, Act.stopClose, Act.stopBegin]

/-- One worker blocked on the empty open queue, no producer left. -/
def init5 : Sys :=
  { q := { buf := [], cap := 10, closed := false }
  , done := DoneSt.opened
  , stopSt := StopSt.notCalled
  , workers := [mkWorker]
  , limit := 1
  , prodRem := []
  , prodClose := false }

/-- The state right after the stop handler is invoked on init5: the handler is
blocked in its unbuffered send on done. -/
def blocked5 : Sys :=
  { init5 with stopSt := StopSt.sending, done := DoneSt.pendingSend }

/-- Scenario of the spec: capacity 2 queue, 1 worker, producer enqueues 1,2,3
then closes, stop never called. -/
def init7 : Sys :=
  { q := { buf := [], cap := 2, closed := false }
  , done := DoneSt.opened
  , stopSt := StopSt.notCalled
  , workers := [mkWorker]
  , limit := 1
  , prodRem := [1, 2, 3]
  , prodClose := true }

/-- One BFS round of the non-control transition system. -/
def expandNC (R : List Sys) : List Sys :=
  (R ++ (R.map succsNC).flatten).dedup

/-- Iterated expansion. -/
def expandIter : Nat → List Sys → List Sys
  | 0, R => R
  | n + 1, R => expandIter n (expandNC R)

/-- All states reachable from init7 by non-control steps. -/
def R7 : List Sys := expandIter 16 [init7]

/-- One deterministic complete schedule for init7. -/
def sched7 : List Act :=
  [Act.enq, Act.enq, Act.deq 0, Act.sel 0, Act.enq, Act.closeQAct,
   Act.deq 0, Act.sel 0, Act.deq 0, Act.sel 0, Act.wexit 0]

/-- The final state of sched7. -/
def final7 : Sys :=
  { q := { buf := [], cap := 2, closed := true }
  , done := DoneSt.opened
  , stopSt := StopSt.notCalled
  , workers := [{ pc := WPC.exited, execs := [1, 2, 3], post := 0 }]
  , limit := 0
  , prodRem := []
  , prodClose := false }

/-- Whether a select executed in a state of the done channel takes the done
branch: it does exactly when the channel is closed or a send is in flight;
with only the default branch otherwise.  After close this is the broadcast
observation: it answers true for every observer. -/
def selectsDone (d : DoneSt) : Bool :=
  match d with
  | DoneSt.pendingSend => true
  | DoneSt.closed => true
  | DoneSt.opened => false
  | DoneSt.sentOpen => false

/-- A state whose queue is at capacity while the producer still has a job:
two buffered jobs in a capacity 2 queue, no worker. -/
def full8 : Sys :=
  { q := { buf := [1, 2], cap := 2, closed := false }
  , done := DoneSt.opened
  , stopSt := StopSt.notCalled
  , workers := []
  , limit := 0
  , prodRem := [9]
  , prodClose := true }

/-- A fresh state with one worker and one buffered job. -/
def s0w : Sys :=
  { q := { buf := [1], cap := 10, closed := false }
  , done := DoneSt.opened
  , stopSt := StopSt.notCalled
  , workers := [mkWorker]
  , limit := 1
  , prodRem := []
  , prodClose := false }

/-- The state after worker 0 of s0w dequeues its job. -/
def s1w : Sys :=
  { q := { buf := [], cap := 10, closed := false }
  , done := DoneSt.opened
  , stopSt := StopSt.notCalled
  , workers := [{ pc := WPC.sel 1, execs := [], post := 0 }]
  , limit := 1
  , prodRem := []
  , prodClose := false }

/-- Exhaustive description of the possible effects of one step: one disjunct
per way some applyAct can succeed. -/
def StepCases (s s2 : Sys) : Prop :=
    (∃ j rest q2, s.prodRem = j :: rest ∧ enqueue j s.q = EnqRes.accepted q2
        ∧ s2 = { s with q := q2, prodRem := rest })
  ∨ (s.prodRem = [] ∧ s.prodClose = true ∧ s.q.closed = false
        ∧ s2 = { s with q := closeQ s.q, prodClose := false })
  ∨ (∃ i w j rest, s.workers.get? i = some w ∧ w.pc = WPC.atLoop ∧ s.q.buf = j :: rest
        ∧ s2 = { s with q := { s.q with buf := rest }
                      , workers := s.workers.set i { w with pc := WPC.sel j } })
  ∨ (∃ i w, s.workers.get? i = some w ∧ w.pc = WPC.atLoop ∧ s.q.buf = []
        ∧ s.q.closed = true
        ∧ s2 = { s with workers := s.workers.set i { w with pc := WPC.exited }
                      , limit := s.limit - 1 })
  ∨ (∃ i w j, s.workers.get? i = some w ∧ w.pc = WPC.sel j ∧ s.done = DoneSt.pendingSend
        ∧ s2 = { s with done := DoneSt.sentOpen, stopSt := StopSt.sendDone
                      , workers := s.workers.set i (runJob (stopCalled s) j w WPC.exited)
                      , limit := s.limit - 1 })
  ∨ (∃ i w j, s.workers.get? i = some w ∧ w.pc = WPC.sel j ∧ s.done = DoneSt.closed
        ∧ s2 = { s with workers := s.workers.set i (runJob (stopCalled s) j w WPC.exited)
                      , limit := s.limit - 1 })
  ∨ (∃ i w j, s.workers.get? i = some w ∧ w.pc = WPC.sel j
        ∧ (s.done = DoneSt.opened ∨ s.done = DoneSt.sentOpen)
        ∧ s2 = { s with workers := s.workers.set i (runJob (stopCalled s) j w WPC.atLoop) })
  ∨ (s.stopSt = StopSt.notCalled ∧ s.done = DoneSt.opened
        ∧ s2 = { s with stopSt := StopSt.sending, done := DoneSt.pendingSend })
  ∨ (s.stopSt = StopSt.completed ∧ s.done = DoneSt.closed
        ∧ s2 = { s with stopSt := StopSt.panicked })
  ∨ (s.stopSt = StopSt.sendDone
        ∧ s2 = { s with done := DoneSt.closed, stopSt := StopSt.completed })
  ∨ (s2 = spawnWorker s)

end Limiter

/-
Theorems.
-/

namespace Patterns

/-- Claim C10: NewClientWrapper and NewTransportWrapper build the fixed default
instance (client: Timeout 0 and the default transport; transport: MaxIdleConns
100, IdleConnTimeout 90s) and apply the options strictly left to right, so the
rightmost option setting a field wins; in particular NewClientWrapper with
Timeout a then Timeout b yields timeout b, and with no options yields
timeout 0. -/
theorem c10_options_fold_left :
    (∀ (opts : List ClientOption) (o : ClientOption),
        NewClientWrapper (opts ++ [o]) = o (NewClientWrapper opts))
    ∧ (∀ (opts : List TransportOption) (o : TransportOption),
        NewTransportWrapper (opts ++ [o]) = o (NewTransportWrapper opts))
    ∧ (∀ a b : Int, (NewClientWrapper [Timeout a, Timeout b]).Cl.timeout = b)
    ∧ (∀ (opts : List ClientOption) (b : Int),
        (NewClientWrapper (opts ++ [Timeout b])).Cl.timeout = b)
    ∧ (NewClientWrapper []).Cl.timeout = 0
    ∧ (NewClientWrapper []).Cl.transport = RoundTripper.defaultTransport
    ∧ (NewTransportWrapper []).Tr.maxIdleConns = 100
    ∧ (NewTransportWrapper []).Tr.idleConnTimeout = 90 * second
    ∧ (∀ (opts : List TransportOption) (t2 : Int),
        (NewTransportWrapper (opts ++ [IdleConTimeout t2])).Tr.idleConnTimeout = t2) := by
  refine ⟨?_, ?_, ?_, ?_, rfl, rfl, rfl, rfl, ?_⟩
  · intro opts o
    simp [NewClientWrapper, List.foldl_append]
  · intro opts o
    simp [NewTransportWrapper, List.foldl_append]
  · intro a b
    rfl
  · intro opts b
    simp [NewClientWrapper, List.foldl_append, Timeout]
  · intro opts t2
    simp [NewTransportWrapper, List.foldl_append, IdleConTimeout]

end Patterns

namespace Limiter

theorem enqAll_ok (xs : List Nat) :
    ∀ (ys : List Nat) (c : Nat), ys.length + xs.length ≤ c →
      enqAll xs { buf := ys, cap := c, closed := false }
        = some { buf := ys ++ xs, cap := c, closed := false } := by
  induction xs with
  | nil => intro ys c h; simp [enqAll]
  | cons j rest ih =>
    intro ys c h
    have hlt : ys.length < c := by
      simp at h
      omega
    have henq : enqueue j { buf := ys, cap := c, closed := false }
        = EnqRes.accepted { buf := ys ++ [j], cap := c, closed := false } := by
      simp [enqueue, hlt]
    have hlen : (ys ++ [j]).length + rest.length ≤ c := by
      simp at h ⊢
      omega
    calc enqAll (j :: rest) { buf := ys, cap := c, closed := false }
        = enqAll rest { buf := ys ++ [j], cap := c, closed := false } := by
          simp [enqAll, henq]
      _ = some { buf := (ys ++ [j]) ++ rest, cap := c, closed := false } := ih (ys ++ [j]) c hlen
      _ = some { buf := ys ++ j :: rest, cap := c, closed := false } := by
          simp

theorem drainFuel_closed (l : List Nat) (c : Nat) :
    drainFuel l.length { buf := l, cap := c, closed := true }
      = (l, { buf := [], cap := c, closed := true }) := by
  induction l with
  | nil => simp [drainFuel]
  | cons j rest ih =>
    simp only [List.length_cons, drainFuel, dequeue]
    rw [ih]

theorem dequeue_drained_iff (q : QSt) :
    dequeue q = DeqRes.drained ↔ (q.buf = [] ∧ q.closed = true) := by
  rcases q with ⟨buf, c, cl⟩
  cases buf with
  | nil =>
    cases cl with
    | false => simp [dequeue]
    | true => simp [dequeue]
  | cons j rest => simp [dequeue]

/-- Claim C6: every enqueued job is delivered to exactly one dequeue before the
queue reports drained: enqueuing xs into the empty open queue buffers exactly
xs in order, draining the closed queue delivers exactly xs in order ending in
the empty closed queue, and dequeue reports drained precisely when the queue is
closed and empty, so closure never discards buffered jobs. -/
theorem c6_no_lost_jobs (xs : List Nat) (c : Nat) (hlen : xs.length ≤ c) :
    enqAll xs { buf := [], cap := c, closed := false }
        = some { buf := xs, cap := c, closed := false }
    ∧ drainFuel xs.length (closeQ { buf := xs, cap := c, closed := false })
        = (xs, { buf := [], cap := c, closed := true })
    ∧ (∀ q : QSt, dequeue q = DeqRes.drained ↔ (q.buf = [] ∧ q.closed = true)) := by
  refine ⟨?_, ?_, dequeue_drained_iff⟩
  · have := enqAll_ok xs [] c (by simpa using hlen)
    simpa using this
  · simpa [closeQ] using drainFuel_closed xs c

/-- Witness for C6 at xs, c concrete. -/
theorem c6_no_lost_jobs_witness :
    enqAll [1, 2, 3] { buf := [], cap := 10, closed := false }
        = some { buf := [1, 2, 3], cap := 10, closed := false }
    ∧ drainFuel 3 (closeQ { buf := [1, 2, 3], cap := 10, closed := false })
        = ([1, 2, 3], { buf := [], cap := 10, closed := true }) := by
  have h := c6_no_lost_jobs [1, 2, 3] 10 (by decide)
  exact ⟨h.1, h.2.1⟩

end Limiter

namespace Limiter

theorem applyAct_stepCases (a : Act) (s s2 : Sys) (h : applyAct a s = some s2) :
    StepCases s s2 := by
  unfold StepCases
  cases a with
  | enq =>
    simp only [applyAct] at h
    split at h
    · exact Option.noConfusion h
    · rename_i j rest heq
      split at h
      · rename_i q2 henq
        exact Or.inl ⟨j, rest, q2, heq, henq, (Option.some.inj h).symm⟩
      · exact Option.noConfusion h
  | closeQAct =>
    simp only [applyAct] at h
    split at h
    · rename_i hcond
      exact Or.inr (Or.inl ⟨hcond.1, hcond.2.1, hcond.2.2, (Option.some.inj h).symm⟩)
    · exact Option.noConfusion h
  | deq i =>
    simp only [applyAct] at h
    split at h
    · rename_i w hw
      split at h
      · rename_i j rest hpc hbuf
        exact Or.inr (Or.inr (Or.inl ⟨i, w, j, rest, hw, hpc, hbuf, (Option.some.inj h).symm⟩))
      · exact Option.noConfusion h
    · exact Option.noConfusion h
  | wexit i =>
    simp only [applyAct] at h
    split at h
    · rename_i w hw
      split at h
      · rename_i hcond
        exact Or.inr (Or.inr (Or.inr (Or.inl
          ⟨i, w, hw, hcond.1, hcond.2.1, hcond.2.2, (Option.some.inj h).symm⟩)))
      · exact Option.noConfusion h
    · exact Option.noConfusion h
  | sel i =>
    simp only [applyAct] at h
    split at h
    · rename_i w hw
      split at h
      · rename_i j hpc
        split at h
        · rename_i hdone
          exact Or.inr (Or.inr (Or.inr (Or.inr (Or.inl
            ⟨i, w, j, hw, hpc, hdone, (Option.some.inj h).symm⟩))))
        · rename_i hdone
          exact Or.inr (Or.inr (Or.inr (Or.inr (Or.inr (Or.inl
            ⟨i, w, j, hw, hpc, hdone, (Option.some.inj h).symm⟩)))))
        · rename_i hdone
          exact Or.inr (Or.inr (Or.inr (Or.inr (Or.inr (Or.inr (Or.inl
            ⟨i, w, j, hw, hpc, Or.inl hdone, (Option.some.inj h).symm⟩))))))
        · rename_i hdone
          exact Or.inr (Or.inr (Or.inr (Or.inr (Or.inr (Or.inr (Or.inl
            ⟨i, w, j, hw, hpc, Or.inr hdone, (Option.some.inj h).symm⟩))))))
      · exact Option.noConfusion h
    · exact Option.noConfusion h
  | stopBegin =>
    simp only [applyAct] at h
    split at h
    · rename_i h1 h2
      exact Or.inr (Or.inr (Or.inr (Or.inr (Or.inr (Or.inr (Or.inr (Or.inl
        ⟨h1, h2, (Option.some.inj h).symm⟩)))))))
    · rename_i h1 h2
      exact Or.inr (Or.inr (Or.inr (Or.inr (Or.inr (Or.inr (Or.inr (Or.inr (Or.inl
        ⟨h1, h2, (Option.some.inj h).symm⟩))))))))
    · exact Option.noConfusion h
  | stopClose =>
    simp only [applyAct] at h
    split at h
    · rename_i hcond
      exact Or.inr (Or.inr (Or.inr (Or.inr (Or.inr (Or.inr (Or.inr (Or.inr (Or.inr (Or.inl
        ⟨hcond, (Option.some.inj h).symm⟩)))))))))
    · exact Option.noConfusion h
  | addWorker =>
    exact Or.inr (Or.inr (Or.inr (Or.inr (Or.inr (Or.inr (Or.inr (Or.inr (Or.inr (Or.inr
      (Option.some.inj h).symm)))))))))

theorem step_stepCases (s s2 : Sys) (h : Step s s2) : StepCases s s2 := by
  obtain ⟨a, ha⟩ := h
  exact applyAct_stepCases a s s2 ha

theorem reach_inv (P : Sys → Prop) (hstep : ∀ s s2, P s → Step s s2 → P s2)
    (s s2 : Sys) (hP : P s) (h : Reach s s2) : P s2 := by
  induction h with
  | refl => exact hP
  | tail hr hst ih => exact hstep _ _ ih hst

end Limiter

namespace Limiter

theorem step_doneInv (s s2 : Sys) (hstep : Step s s2)
    (h1 : s.stopSt = StopSt.notCalled → s.done = DoneSt.opened)
    (h2 : s.stopSt = StopSt.completed → s.done = DoneSt.closed) :
    (s2.stopSt = StopSt.notCalled → s2.done = DoneSt.opened)
    ∧ (s2.stopSt = StopSt.completed → s2.done = DoneSt.closed) := by
  rcases step_stepCases s s2 hstep with
    ⟨j, rest, q2, hpr, henq, rfl⟩ | ⟨hpr, hpcl, hcl, rfl⟩
    | ⟨i, w, j, rest, hw, hpc, hbuf, rfl⟩ | ⟨i, w, hw, hpc, hbuf, hcl, rfl⟩
    | ⟨i, w, j, hw, hpc, hdone, rfl⟩ | ⟨i, w, j, hw, hpc, hdone, rfl⟩
    | ⟨i, w, j, hw, hpc, hdone, rfl⟩ | ⟨hst, hdone, rfl⟩ | ⟨hst, hdone, rfl⟩
    | ⟨hst, rfl⟩ | rfl
  · exact ⟨h1, h2⟩
  · exact ⟨h1, h2⟩
  · exact ⟨h1, h2⟩
  · exact ⟨h1, h2⟩
  · exact ⟨fun hx => StopSt.noConfusion hx, fun hx => StopSt.noConfusion hx⟩
  · exact ⟨h1, h2⟩
  · exact ⟨h1, h2⟩
  · exact ⟨fun hx => StopSt.noConfusion hx, fun hx => StopSt.noConfusion hx⟩
  · exact ⟨fun hx => StopSt.noConfusion hx, fun hx => StopSt.noConfusion hx⟩
  · exact ⟨fun hx => StopSt.noConfusion hx, fun _ => rfl⟩
  · exact ⟨h1, h2⟩

theorem step_closed_pres (s s2 : Sys) (hstep : Step s s2) (h : s.done = DoneSt.closed) :
    s2.done = DoneSt.closed := by
  rcases step_stepCases s s2 hstep with
    ⟨j, rest, q2, hpr, henq, rfl⟩ | ⟨hpr, hpcl, hcl, rfl⟩
    | ⟨i, w, j, rest, hw, hpc, hbuf, rfl⟩ | ⟨i, w, hw, hpc, hbuf, hcl, rfl⟩
    | ⟨i, w, j, hw, hpc, hdone, rfl⟩ | ⟨i, w, j, hw, hpc, hdone, rfl⟩
    | ⟨i, w, j, hw, hpc, hdone, rfl⟩ | ⟨hst, hdone, rfl⟩ | ⟨hst, hdone, rfl⟩
    | ⟨hst, rfl⟩ | rfl
  · exact h
  · exact h
  · exact h
  · exact h
  · rw [h] at hdone; exact DoneSt.noConfusion hdone
  · exact h
  · exact h
  · rw [h] at hdone; exact DoneSt.noConfusion hdone
  · exact h
  · rfl
  · exact h

/-- Claim C2: the cancellation signal is a true broadcast within a generation.
From any state in which stop has not been invoked and the done channel is open:
as long as stop has not been invoked every select observes not-signaled; once
the stop handler has completed, the done channel is closed and every select,
by any current or future worker, observes signaled; and a closed done channel
stays closed under every further step, so the observation is permanent for the
generation. -/
theorem c2_broadcast_signal (s0 s s2 : Sys)
    (h01 : s0.stopSt = StopSt.notCalled) (h02 : s0.done = DoneSt.opened)
    (hr : Reach s0 s) (hstep : Step s s2) :
    (s.stopSt = StopSt.notCalled → s.done = DoneSt.opened ∧ selectsDone s.done = false)
    ∧ (s.stopSt = StopSt.completed → s.done = DoneSt.closed ∧ selectsDone s.done = true)
    ∧ (s.done = DoneSt.closed → s2.done = DoneSt.closed ∧ selectsDone s2.done = true) := by
  have hinv := reach_inv
    (fun t => (t.stopSt = StopSt.notCalled → t.done = DoneSt.opened)
      ∧ (t.stopSt = StopSt.completed → t.done = DoneSt.closed))
    (fun t t2 hP hs => step_doneInv t t2 hs hP.1 hP.2)
    s0 s
    ⟨fun _ => h02, fun hx => absurd (h01.symm.trans hx) (by decide)⟩ hr
  refine ⟨fun hx => ⟨hinv.1 hx, ?_⟩, fun hx => ⟨hinv.2 hx, ?_⟩, fun hx => ?_⟩
  · rw [hinv.1 hx]; rfl
  · rw [hinv.2 hx]; rfl
  · have hc := step_closed_pres s s2 hstep hx
    exact ⟨hc, by rw [hc]; rfl⟩

/-- Witness for C2: a concrete pre-fire state with one worker and one step. -/
theorem c2_broadcast_signal_witness :
    s0w.done = DoneSt.opened ∧ selectsDone s0w.done = false :=
  (c2_broadcast_signal s0w s0w s1w rfl rfl Relation.ReflTransGen.refl
    ⟨Act.deq 0, by decide⟩).1 rfl

end Limiter

namespace Limiter

theorem step_stopBlocked (s s2 : Sys) (hstep : Step s s2)
    (hP : s.stopSt = StopSt.sending ∧ s.q.buf = [] ∧ s.q.closed = false
      ∧ s.prodRem = [] ∧ s.prodClose = false ∧ ∀ w ∈ s.workers, w.pc = WPC.atLoop) :
    s2.stopSt = StopSt.sending ∧ s2.q.buf = [] ∧ s2.q.closed = false
      ∧ s2.prodRem = [] ∧ s2.prodClose = false ∧ ∀ w ∈ s2.workers, w.pc = WPC.atLoop := by
  obtain ⟨hss, hbuf, hcl, hpr, hpcl, hws⟩ := hP
  rcases step_stepCases s s2 hstep with
    ⟨j, rest, q2, hpr2, henq, rfl⟩ | ⟨hpr2, hpcl2, hcl2, rfl⟩
    | ⟨i, w, j, rest, hw, hpc, hbuf2, rfl⟩ | ⟨i, w, hw, hpc, hbuf2, hcl2, rfl⟩
    | ⟨i, w, j, hw, hpc, hdone, rfl⟩ | ⟨i, w, j, hw, hpc, hdone, rfl⟩
    | ⟨i, w, j, hw, hpc, hdone, rfl⟩ | ⟨hst, hdone, rfl⟩ | ⟨hst, hdone, rfl⟩
    | ⟨hst, rfl⟩ | rfl
  · rw [hpr] at hpr2; exact List.noConfusion hpr2
  · rw [hpcl] at hpcl2; exact Bool.noConfusion hpcl2
  · rw [hbuf] at hbuf2; exact List.noConfusion hbuf2
  · rw [hcl] at hcl2; exact Bool.noConfusion hcl2
  · have := hws w (List.get?_mem hw); rw [this] at hpc; exact WPC.noConfusion hpc
  · have := hws w (List.get?_mem hw); rw [this] at hpc; exact WPC.noConfusion hpc
  · have := hws w (List.get?_mem hw); rw [this] at hpc; exact WPC.noConfusion hpc
  · rw [hss] at hst; exact StopSt.noConfusion hst
  · rw [hss] at hst; exact StopSt.noConfusion hst
  · rw [hss] at hst; exact StopSt.noConfusion hst
  · refine ⟨hss, hbuf, hcl, hpr, hpcl, fun w hw => ?_⟩
    rcases List.mem_append.mp hw with hin | hin
    · exact hws w hin
    · rw [List.mem_singleton.mp hin]

/-- Claim C5 evidence: the first statement of the stop handler is the blocking
unbuffered send on done.  Once the handler begins on a state where the single
worker is blocked receiving on the empty open queue, the handler stays stuck in
that send in every reachable state: it never completes, so stop does not return
control, blocked waiting for a worker to be ready to receive the signal. -/
theorem c5_stop_blocks (s : Sys) (hr : Reach blocked5 s) :
    applyAct Act.stopBegin init5 = some blocked5
    ∧ s.stopSt = StopSt.sending
    ∧ s.stopSt ≠ StopSt.completed := by
  have hinv := reach_inv
    (fun t => t.stopSt = StopSt.sending ∧ t.q.buf = [] ∧ t.q.closed = false
      ∧ t.prodRem = [] ∧ t.prodClose = false ∧ ∀ w ∈ t.workers, w.pc = WPC.atLoop)
    (fun t t2 hP hs => step_stopBlocked t t2 hs hP)
    blocked5 s (by decide) hr
  exact ⟨by decide, hinv.1, fun hx => StopSt.noConfusion (hinv.1.symm.trans hx)⟩

/-- Witness for C5 at the state right after stop is invoked. -/
theorem c5_stop_blocks_witness :
    applyAct Act.stopBegin init5 = some blocked5
    ∧ blocked5.stopSt = StopSt.sending :=
  have h := c5_stop_blocks blocked5 Relation.ReflTransGen.refl
  ⟨h.1, h.2.1⟩

end Limiter

namespace Limiter

theorem enqueue_accepted (j : Nat) (q q2 : QSt) (h : enqueue j q = EnqRes.accepted q2) :
    q2 = { q with buf := q.buf ++ [j] } ∧ q.buf.length < q.cap ∧ q.closed = false := by
  unfold enqueue at h
  split at h
  · exact EnqRes.noConfusion h
  · rename_i hcl
    split at h
    · rename_i hlt
      exact ⟨(EnqRes.accepted.inj h).symm, hlt, by simpa using hcl⟩
    · exact EnqRes.noConfusion h

theorem enqueue_full (j : Nat) (q : QSt) (h : q.buf.length = q.cap) (hcl : q.closed = false) :
    enqueue j q = EnqRes.blocked := by
  simp [enqueue, hcl, h]

theorem enqueue_space (j : Nat) (q : QSt) (hcl : q.closed = false)
    (hlt : q.buf.length < q.cap) :
    enqueue j q = EnqRes.accepted { q with buf := q.buf ++ [j] } := by
  simp [enqueue, hcl, hlt]

theorem applyAct_enq_full (s : Sys) (h : s.q.buf.length = s.q.cap) :
    applyAct Act.enq s = none := by
  simp only [applyAct]
  split
  · rfl
  · rename_i j rest hpr
    rcases henq : enqueue j s.q with q2 | _ | _
    · have := (enqueue_accepted j s.q q2 henq).2.1
      omega
    · simp [henq]
    · simp [henq]

theorem step_buflen (s s2 : Sys) (hstep : Step s s2) (h : s.q.buf.length ≤ s.q.cap) :
    s2.q.buf.length ≤ s2.q.cap := by
  rcases step_stepCases s s2 hstep with
    ⟨j, rest, q2, hpr, henq, rfl⟩ | ⟨hpr, hpcl, hcl, rfl⟩
    | ⟨i, w, j, rest, hw, hpc, hbuf, rfl⟩ | ⟨i, w, hw, hpc, hbuf, hcl, rfl⟩
    | ⟨i, w, j, hw, hpc, hdone, rfl⟩ | ⟨i, w, j, hw, hpc, hdone, rfl⟩
    | ⟨i, w, j, hw, hpc, hdone, rfl⟩ | ⟨hst, hdone, rfl⟩ | ⟨hst, hdone, rfl⟩
    | ⟨hst, rfl⟩ | rfl
  · obtain ⟨rfl, hlt, hcl⟩ := enqueue_accepted j s.q q2 henq
    simp
    omega
  · exact h
  · show rest.length ≤ s.q.cap
    rw [hbuf] at h
    simp at h
    omega
  · exact h
  · exact h
  · exact h
  · exact h
  · exact h
  · exact h
  · exact h
  · exact h

/-- Claim C8: the queue is bounded at its construction capacity: the bound
buf.length ≤ cap is preserved by every step; a send on a full open queue
blocks; the producer step is disabled whenever the queue is full, and enabled
again as soon as the buffer is below capacity; the capacity in main is 10. -/
theorem c8_backpressure (s s2 : Sys) (j : Nat) (q : QSt)
    (hinv : s.q.buf.length ≤ s.q.cap) (hr : Reach s s2) :
    s2.q.buf.length ≤ s2.q.cap
    ∧ (q.buf.length = q.cap → q.closed = false → enqueue j q = EnqRes.blocked)
    ∧ (s2.q.buf.length = s2.q.cap → applyAct Act.enq s2 = none)
    ∧ (q.closed = false → q.buf.length < q.cap →
        enqueue j q = EnqRes.accepted { q with buf := q.buf ++ [j] })
    ∧ initMain.q.cap = 10 := by
  refine ⟨reach_inv (fun t => t.q.buf.length ≤ t.q.cap)
      (fun t t2 hP hs => step_buflen t t2 hs hP) s s2 hinv hr,
    fun hfull hcl => enqueue_full j q hfull hcl,
    fun hfull => applyAct_enq_full s2 hfull,
    fun hcl hlt => enqueue_space j q hcl hlt,
    rfl⟩

/-- Witness for C8 at the full capacity 2 state with a waiting producer. -/
theorem c8_backpressure_witness :
    enqueue 9 full8.q = EnqRes.blocked
    ∧ applyAct Act.enq full8 = none
    ∧ initMain.q.cap = 10 :=
  have h := c8_backpressure full8 full8 9 full8.q (by decide) Relation.ReflTransGen.refl
  ⟨h.2.1 rfl rfl, h.2.2.1 rfl, h.2.2.2.2⟩

end Limiter

namespace Limiter

theorem countP_set (p : Worker → Bool) (l : List Worker) (i : Nat) (w w0 : Worker)
    (h : l.get? i = some w0) :
    (l.set i w).countP p + (if p w0 then 1 else 0)
      = l.countP p + (if p w then 1 else 0) := by
  induction l generalizing i with
  | nil => exact Option.noConfusion h
  | cons x xs ih =>
    cases i with
    | zero =>
      have hx : x = w0 := Option.some.inj h
      subst hx
      simp only [List.set, List.countP_cons]
      omega
    | succ n =>
      have hx : xs.get? n = some w0 := h
      simp only [List.set, List.countP_cons]
      have := ih n hx
      omega

theorem live_runJob_exited (b : Bool) (j : Nat) (w : Worker) :
    live (runJob b j w WPC.exited) = false := rfl

theorem live_atLoop (w : Worker) (h : w.pc = WPC.atLoop) : live w = true := by
  simp [live, h]

theorem live_sel (w : Worker) (j : Nat) (h : w.pc = WPC.sel j) : live w = true := by
  simp [live, h]

theorem step_limit_inv (s s2 : Sys) (hstep : Step s s2) (h : s.limit = liveCount s) :
    s2.limit = liveCount s2 := by
  rcases step_stepCases s s2 hstep with
    ⟨j, rest, q2, hpr, henq, rfl⟩ | ⟨hpr, hpcl, hcl, rfl⟩
    | ⟨i, w, j, rest, hw, hpc, hbuf, rfl⟩ | ⟨i, w, hw, hpc, hbuf, hcl, rfl⟩
    | ⟨i, w, j, hw, hpc, hdone, rfl⟩ | ⟨i, w, j, hw, hpc, hdone, rfl⟩
    | ⟨i, w, j, hw, hpc, hdone, rfl⟩ | ⟨hst, hdone, rfl⟩ | ⟨hst, hdone, rfl⟩
    | ⟨hst, rfl⟩ | rfl
  · exact h
  · exact h
  · -- dequeue: the worker moves from atLoop to sel, staying live
    show s.limit = (s.workers.set i { w with pc := WPC.sel j }).countP live
    have hc := countP_set live s.workers i { w with pc := WPC.sel j } w hw
    rw [live_atLoop w hpc] at hc
    have hl : live { w with pc := WPC.sel j } = true := rfl
    rw [hl] at hc
    simp at hc
    unfold liveCount at h
    omega
  · -- worker exit at drained queue
    show s.limit - 1 = (s.workers.set i { w with pc := WPC.exited }).countP live
    have hc := countP_set live s.workers i { w with pc := WPC.exited } w hw
    rw [live_atLoop w hpc] at hc
    have hl : live { w with pc := WPC.exited } = false := rfl
    rw [hl] at hc
    simp at hc
    unfold liveCount at h
    omega
  · -- select takes the pending send, runs the job, exits
    show s.limit - 1 = (s.workers.set i (runJob (stopCalled s) j w WPC.exited)).countP live
    have hc := countP_set live s.workers i (runJob (stopCalled s) j w WPC.exited) w hw
    rw [live_sel w j hpc, live_runJob_exited] at hc
    simp at hc
    unfold liveCount at h
    omega
  · -- select sees the closed channel, runs the job, exits
    show s.limit - 1 = (s.workers.set i (runJob (stopCalled s) j w WPC.exited)).countP live
    have hc := countP_set live s.workers i (runJob (stopCalled s) j w WPC.exited) w hw
    rw [live_sel w j hpc, live_runJob_exited] at hc
    simp at hc
    unfold liveCount at h
    omega
  · -- select default branch: runs the job and loops, staying live
    show s.limit = (s.workers.set i (runJob (stopCalled s) j w WPC.atLoop)).countP live
    have hc := countP_set live s.workers i (runJob (stopCalled s) j w WPC.atLoop) w hw
    rw [live_sel w j hpc] at hc
    have hl : live (runJob (stopCalled s) j w WPC.atLoop) = true := rfl
    rw [hl] at hc
    simp at hc
    unfold liveCount at h
    omega
  · exact h
  · exact h
  · exact h
  · -- addWorker: limit.Add(1) paired with one new live worker
    show s.limit + 1 = List.countP live (s.workers ++ [{ pc := WPC.atLoop, execs := [], post := 0 }])
    rw [List.countP_append]
    unfold liveCount at h
    simp [List.countP_cons, live]
    omega

theorem spawnN_limit (n : Nat) (s : Sys) :
    (spawnN n s).workers.length = s.workers.length + n
    ∧ (spawnN n s).limit = s.limit + n
    ∧ liveCount (spawnN n s) = liveCount s + n := by
  induction n generalizing s with
  | zero => simp [spawnN]
  | succ m ih =>
    have h := ih (spawnWorker s)
    simp only [spawnN] at h ⊢
    have h1 : (spawnWorker s).workers.length = s.workers.length + 1 := by
      simp [spawnWorker]
    have h2 : (spawnWorker s).limit = s.limit + 1 := rfl
    have h3 : liveCount (spawnWorker s) = liveCount s + 1 := by
      unfold liveCount spawnWorker
      simp [List.countP_append, List.countP_cons, live]
    omega

theorem live_false_iff (w : Worker) : live w = false ↔ w.pc = WPC.exited := by
  rcases w with ⟨pc, e, p⟩
  cases pc <;> simp [live]

/-- Claim C9: wgroup spawns exactly 5 workers; every spawn path pairs one
limit.Add with one new worker and every worker exit pairs one limit decrement
with that worker leaving the live set, so limit equals the number of live
workers in every reachable state, and it reaches 0 exactly when all workers
have exited. -/
theorem c9_waitgroup (s s2 : Sys) (hinv : s.limit = liveCount s) (hr : Reach s s2) :
    ((wgroup base).workers.length = 5 ∧ (wgroup base).limit = 5)
    ∧ s2.limit = liveCount s2
    ∧ (s2.limit = 0 ↔ ∀ w ∈ s2.workers, w.pc = WPC.exited) := by
  have h2 := reach_inv (fun t => t.limit = liveCount t)
    (fun t t2 hP hs => step_limit_inv t t2 hs hP) s s2 hinv hr
  refine ⟨⟨?_, ?_⟩, h2, ?_⟩
  · have := spawnN_limit 5 base
    simpa [wgroup] using this.1
  · have := spawnN_limit 5 base
    simpa [wgroup] using this.2.1
  · rw [h2]
    unfold liveCount
    rw [List.countP_eq_zero]
    constructor
    · intro hz w hw
      exact (live_false_iff w).mp (by simpa using hz w hw)
    · intro hz w hw
      simpa using (live_false_iff w).mpr (hz w hw)

/-- Witness for C9: the pool right after wgroup, plus one addWorker step. -/
theorem c9_waitgroup_witness :
    (wgroup base).workers.length = 5 ∧ (wgroup base).limit = 5
    ∧ (spawnWorker (wgroup base)).limit = liveCount (spawnWorker (wgroup base)) :=
  have h := c9_waitgroup (wgroup base) (spawnWorker (wgroup base)) (by decide)
    (Relation.ReflTransGen.single ⟨Act.addWorker, rfl⟩)
  ⟨h.1.1, h.1.2, h.2.1⟩

end Limiter

namespace Limiter

theorem applyAct_mem_acts (a : Act) (s s2 : Sys) (h : applyAct a s = some s2) :
    a ∈ acts s := by
  cases a with
  | enq => simp [acts]
  | closeQAct => simp [acts]
  | stopBegin => simp [acts]
  | stopClose => simp [acts]
  | addWorker => simp [acts]
  | deq i =>
    have hlt : i < s.workers.length := by
      by_contra hge
      push_neg at hge
      have hnone : s.workers.get? i = none := List.get?_eq_none.mpr hge
      simp only [applyAct, hnone] at h
      exact Option.noConfusion h
    exact List.mem_append_left _ (List.mem_append_left _ (List.mem_append_right _
      (List.mem_map.mpr ⟨i, List.mem_range.mpr hlt, rfl⟩)))
  | wexit i =>
    have hlt : i < s.workers.length := by
      by_contra hge
      push_neg at hge
      have hnone : s.workers.get? i = none := List.get?_eq_none.mpr hge
      simp only [applyAct, hnone] at h
      exact Option.noConfusion h
    exact List.mem_append_left _ (List.mem_append_right _
      (List.mem_map.mpr ⟨i, List.mem_range.mpr hlt, rfl⟩))
  | sel i =>
    have hlt : i < s.workers.length := by
      by_contra hge
      push_neg at hge
      have hnone : s.workers.get? i = none := List.get?_eq_none.mpr hge
      simp only [applyAct, hnone] at h
      exact Option.noConfusion h
    exact List.mem_append_right _
      (List.mem_map.mpr ⟨i, List.mem_range.mpr hlt, rfl⟩)

theorem stepNC_iff_mem (s s2 : Sys) : StepNC s s2 ↔ s2 ∈ succsNC s := by
  constructor
  · rintro ⟨a, hctl, ha⟩
    unfold succsNC
    rw [List.mem_filterMap]
    refine ⟨a, ?_, ha⟩
    rw [List.mem_filter]
    exact ⟨applyAct_mem_acts a s s2 ha, by simp [hctl]⟩
  · intro hm
    unfold succsNC at hm
    rw [List.mem_filterMap] at hm
    obtain ⟨a, hma, ha⟩ := hm
    rw [List.mem_filter] at hma
    refine ⟨a, ?_, ha⟩
    simpa using hma.2

theorem reachNC_mem_R7 (s : Sys) (h : ReachNC init7 s) : s ∈ R7 := by
  have hin : init7 ∈ R7 := by decide
  have hcl : ∀ t ∈ R7, ∀ t2 ∈ succsNC t, t2 ∈ R7 := by decide
  induction h with
  | refl => exact hin
  | tail hr hst ih => exact hcl _ ih _ ((stepNC_iff_mem _ _).mp hst)

theorem run_reachNC (as : List Act) (s s2 : Sys)
    (hctl : ∀ a ∈ as, a.isCtl = false) (h : run as s = some s2) : ReachNC s s2 := by
  induction as generalizing s with
  | nil =>
    simp only [run] at h
    cases Option.some.inj h
    exact Relation.ReflTransGen.refl
  | cons a as ih =>
    simp only [run] at h
    split at h
    · rename_i s1 ha
      exact Relation.ReflTransGen.head ⟨a, hctl a (List.mem_cons_self a as), ha⟩
        (ih s1 (fun b hb => hctl b (List.mem_cons_of_mem a hb)) h)
    · exact Option.noConfusion h

end Limiter

namespace Limiter

/-- Claim C7: scenario with a capacity 2 queue, one worker, jobs 1,2,3 enqueued
and then the queue closed, stop never invoked: in every maximal execution (one
from which no producer or worker step is enabled) the worker has executed
exactly 1,2,3 in that order and exited, the queue is drained and closed, and
the limit counter is 0. -/
theorem c7_scenario (s : Sys) (hr : ReachNC init7 s) (hmax : succsNC s = []) :
    s.workers.map Worker.execs = [[1, 2, 3]]
    ∧ s.workers.map Worker.pc = [WPC.exited]
    ∧ s.q.buf = [] ∧ s.q.closed = true ∧ s.limit = 0 := by
  have hterm : ∀ t ∈ R7, succsNC t = [] →
      (t.workers.map Worker.execs = [[1, 2, 3]]
        ∧ t.workers.map Worker.pc = [WPC.exited]
        ∧ t.q.buf = [] ∧ t.q.closed = true ∧ t.limit = 0) := by decide
  exact hterm s (reachNC_mem_R7 s hr) hmax

/-- Witness for C7: the final state of one complete schedule. -/
theorem c7_scenario_witness :
    final7.workers.map Worker.execs = [[1, 2, 3]]
    ∧ final7.workers.map Worker.pc = [WPC.exited]
    ∧ final7.q.buf = [] ∧ final7.q.closed = true ∧ final7.limit = 0 :=
  c7_scenario final7
    (run_reachNC sched7 init7 final7 (by decide) (by decide))
    (by decide)

/-- Claim C1 evidence: a trace of the machine refuting the at-most-one-job
bound.  From init1, stop is invoked; worker 0 receives the in-flight done send
and exits after one job; the stop handler has not yet executed close, so worker
1 misses the signal through the select default branch twice, and after close it
runs one more job through the done branch: worker 1 starts 3 jobs after stop is
invoked. -/
theorem c1_trace_violation :
    (run trace1 init1).map (fun s => (s.workers.map Worker.post,
      s.workers.map Worker.execs, s.stopSt, s.done))
      = some ([1, 3], [[1], [2, 3, 4]], StopSt.completed, DoneSt.closed) := by
  decide

/-- Claim C3 evidence: request on a failed downstream call terminates the whole
process with exit code 1 instead of continuing; only a successful call lets the
worker continue. -/
theorem c3_request_exits_process :
    request 0 InvokeRes.err = ReqOutcome.exitProcess 1
    ∧ (∀ i b : Nat, request i (InvokeRes.ok b) = ReqOutcome.printedAndContinue i b) :=
  ⟨rfl, fun _ _ => rfl⟩

/-- Claim C4 evidence: after a completed stop the done channel is closed, and a
second stop invocation executes a send on the closed channel, a Go runtime
panic, rather than a no-op or an error value; the signal itself stays closed. -/
theorem c4_second_stop_panics :
    (run trace4 init4).map (fun s => (s.stopSt, s.done))
      = some (StopSt.panicked, DoneSt.closed) := by
  decide

end Limiter
